import Mathlib

/-!
Verification of the Darubuddy settlement engine (`script.js`, function
`calculateAdvanced`, lines 210-324).  Currency values are modelled as exact
rationals; the JS `while` settlement loop is modelled with a structurally
decreasing fuel equal to the total number of debtors and creditors, which is
shown to be sufficient.  A lookup of a key absent from the `totals` object
(a JS `TypeError`) is modelled by `Option`.
-/

namespace Darubuddy

/-- Balance record per participant, `{ paid, owed }` (script.js line 245). -/
structure Balance where
  paid : ℚ
  owed : ℚ
deriving Repr, DecidableEq

/-- An expense row as collected from the DOM (script.js lines 222-234). -/
structure Expense where
  description : String
  amount : ℚ
  payer : String
  sharedBy : List String
deriving Repr, DecidableEq

/-- A settlement instruction `{ from, to, amount }` (script.js line 275).
The source field names `from` and `to` are Lean keywords, so they are
rendered `from_` and `to_`. -/
structure Transfer where
  from_ : String
  to_ : String
  amount : ℚ
deriving Repr, DecidableEq

/-- The successful output of `calculateAdvanced`: the fields of
`lastCalculation` that the core computes (script.js lines 314-322). -/
structure Result where
  nets : List (String × ℚ)
  settlement : List Transfer
  totalSpent : ℚ
deriving Repr, DecidableEq

/-- Possible outcomes of `calculateAdvanced`: the two validation exits
(script.js lines 213-217 and 236-240), the JS `TypeError` thrown when a
`totals` key is absent, and success. -/
inductive CalcOutcome where
  | noParticipants
  | noValidExpenses
  | typeError
  | ok (r : Result)
deriving Repr, DecidableEq

/-- Rounding to two decimals, modelling `parseFloat(net.toFixed(2))`
(script.js line 258) in exact arithmetic: round half away from zero at the
second decimal. -/
def roundCent (x : ℚ) : ℚ :=
  (if 0 ≤ x then ((⌊x * 100 + 1 / 2⌋ : ℤ) : ℚ)
   else -((⌊-(x * 100) + 1 / 2⌋ : ℤ) : ℚ)) / 100

/-- An expense row is kept iff its amount is a (parsed) positive number, its
payer is non-empty and at least one sharer is ticked (script.js line 231). -/
def validExpense (e : Expense) : Bool :=
  decide (0 < e.amount) && decide (e.payer ≠ "") && decide (0 < e.sharedBy.length)

/-- The `totals` object right after its keys are created: every participant
starts with `{ paid: 0, owed: 0 }` (script.js lines 243-246). -/
def initTotals : String → Balance := fun _ => ⟨0, 0⟩

/-- The inner `forEach` of the expense fold (script.js lines 251-253): every
name in `sharedBy` has `share` added to its `owed`.  A name outside the key
set `ps` of `totals` is the JS `TypeError`, modelled as `none`. -/
def addOwed (ps : List String) (share : ℚ) :
    (String → Balance) → List String → Option (String → Balance)
  | t, [] => some t
  | t, n :: ns =>
      if n ∈ ps then
        addOwed ps share
          (fun m => if m = n then { t n with owed := (t n).owed + share } else t m) ns
      else none

/-- One step of the expense fold (script.js lines 248-254): the payer's
`paid` grows by the full amount, then every shared name's `owed` grows by
`amount / sharedBy.length`. -/
def applyExpense (ps : List String) (t : String → Balance) (e : Expense) :
    Option (String → Balance) :=
  let share := e.amount / (e.sharedBy.length : ℚ)
  if e.payer ∈ ps then
    addOwed ps share
      (fun m =>
        if m = e.payer then { t e.payer with paid := (t e.payer).paid + e.amount }
        else t m)
      e.sharedBy
  else none

/-- The whole `expenses.forEach` fold (script.js lines 248-254). -/
def aggregateExpenses (ps : List String) :
    (String → Balance) → List Expense → Option (String → Balance)
  | t, [] => some t
  | t, e :: es =>
      match applyExpense ps t e with
      | none => none
      | some t2 => aggregateExpenses ps t2 es

/-- Debtor partition: entries with `net < -0.01`, stored as positive owed
amounts (script.js lines 263-265). -/
def debtorsOf (nets : List (String × ℚ)) : List (String × ℚ) :=
  (nets.filter fun x => decide (x.2 < -(1 / 100))).map fun x => (x.1, -x.2)

/-- Creditor partition: entries with `net > 0.01` (script.js lines 266-268). -/
def creditorsOf (nets : List (String × ℚ)) : List (String × ℚ) :=
  (nets.filter fun x => decide (1 / 100 < x.2)).map fun x => (x.1, x.2)

/-- The greedy two-pointer `while` loop (script.js lines 269-280), with the
already-processed front of each list dropped instead of indexed past, and
a structural fuel.  Each iteration settles `min` of the current residuals and
drops a side once its residual falls below `0.01`; fuel
`debtors.length + creditors.length` is enough (see `settleLoop_eq_cons`). -/
def settleLoopF : ℕ → List (String × ℚ) → List (String × ℚ) → List Transfer
  | _, [], _ => []
  | _, _ :: _, [] => []
  | 0, _ :: _, _ :: _ => []
  | fuel + 1, (dn, da) :: ds, (cn, ca) :: cs =>
      let settled := min da ca
      Transfer.mk dn cn settled ::
        (if da - settled < 1 / 100 then
           if ca - settled < 1 / 100 then settleLoopF fuel ds cs
           else settleLoopF fuel ds ((cn, ca - settled) :: cs)
         else
           if ca - settled < 1 / 100 then settleLoopF fuel ((dn, da - settled) :: ds) cs
           else settleLoopF fuel ((dn, da - settled) :: ds) ((cn, ca - settled) :: cs))

/-- The settlement loop applied with sufficient fuel. -/
def settleLoop (debtors creditors : List (String × ℚ)) : List Transfer :=
  settleLoopF (debtors.length + creditors.length) debtors creditors

/-- The computational core of `calculateAdvanced` (script.js lines 210-324):
validation exits, the expense filter, the totals fold, the rounded nets, the
greedy settlement loop and the total spent. -/
def calculateAdvanced (participants : List String) (items : List Expense) :
    CalcOutcome :=
  if participants.length = 0 then .noParticipants
  else
    let expenses := items.filter validExpense
    if expenses.length = 0 then .noValidExpenses
    else
      let totalSpent := (expenses.map Expense.amount).sum
      match aggregateExpenses participants initTotals expenses with
      | none => .typeError
      | some totals =>
          let nets := participants.map fun name =>
            (name, roundCent ((totals name).paid - (totals name).owed))
          let settlement := settleLoop (debtorsOf nets) (creditorsOf nets)
          .ok ⟨nets, settlement, roundCent totalSpent⟩

/-- The nets of a successful outcome, `none` on the error outcomes. -/
def resultNets : CalcOutcome → Option (List (String × ℚ))
  | .ok r => some r.nets
  | _ => none

/-- Total amount the name `n` pays out across a transfer list. -/
def paidBy (n : String) (ts : List Transfer) : ℚ :=
  (ts.map fun t => if t.from_ = n then t.amount else 0).sum

/-- Total amount the name `n` receives across a transfer list. -/
def recvBy (n : String) (ts : List Transfer) : ℚ :=
  (ts.map fun t => if t.to_ = n then t.amount else 0).sum

/-- Total amount attached to the name `n` in a (name, amount) list. -/
def sumOf (n : String) (l : List (String × ℚ)) : ℚ :=
  (l.map fun p => if p.1 = n then p.2 else 0).sum

/-- Sum of all amounts in a (name, amount) list. -/
def sumAmounts (l : List (String × ℚ)) : ℚ := (l.map Prod.snd).sum

/-- The net recorded for name `n` in a nets list (0 if absent). -/
def netLookup (nets : List (String × ℚ)) (n : String) : ℚ :=
  match nets.find? fun p => decide (p.1 = n) with
  | some p => p.2
  | none => 0

/-- Application of one transfer with the orientation written in the spec
text: the amount is subtracted from the `from` participant's net and added
to the `to` participant's net. -/
def applyTransferSpec (f : String → ℚ) (t : Transfer) : String → ℚ :=
  fun n => f n - (if t.from_ = n then t.amount else 0) + (if t.to_ = n then t.amount else 0)

/-- Application of a transfer sequence in order, spec-text orientation. -/
def applyTransfersSpec (f : String → ℚ) : List Transfer → (String → ℚ)
  | [] => f
  | t :: ts => applyTransfersSpec (applyTransferSpec f t) ts

/-- Application of one transfer as an actual payment: the `from` participant
has now additionally paid the amount, so their net rises by it; the `to`
participant's net falls by it. -/
def applyTransferPay (f : String → ℚ) (t : Transfer) : String → ℚ :=
  fun n => f n + (if t.from_ = n then t.amount else 0) - (if t.to_ = n then t.amount else 0)

/-- Application of a transfer sequence in order, payment orientation. -/
def applyTransfersPay (f : String → ℚ) : List Transfer → (String → ℚ)
  | [] => f
  | t :: ts => applyTransfersPay (applyTransferPay f t) ts

/-- A value is a whole number of cents. -/
def IsCent (x : ℚ) : Prop := ∃ k : ℤ, x = k / 100

/-- Total paid by name `n` as payer over an expense list. -/
def paidSum (n : String) (es : List Expense) : ℚ :=
  (es.map fun e => if e.payer = n then e.amount else 0).sum

/-- Total owed by name `n` as sharer over an expense list. -/
def owedSum (n : String) (es : List Expense) : ℚ :=
  (es.map fun e => (e.amount / (e.sharedBy.length : ℚ)) * (e.sharedBy.count n : ℚ)).sum

/-- Every name of an expense is a known participant. -/
def KnownNames (ps : List String) (e : Expense) : Prop :=
  e.payer ∈ ps ∧ ∀ n ∈ e.sharedBy, n ∈ ps

instance (ps : List String) (e : Expense) : Decidable (KnownNames ps e) := by
  unfold KnownNames; infer_instance

/-- Concrete run of the spec's first scenario: two participants, one
100-unit expense paid by A and shared by both. -/
theorem scenario1_ok :
    calculateAdvanced ["A", "B"] [⟨"Beer", 100, "A", ["A", "B"]⟩] =
      .ok ⟨[("A", 50), ("B", -50)], [⟨"B", "A", 50⟩], 100⟩ := by
  norm_num [calculateAdvanced, aggregateExpenses, applyExpense, addOwed, initTotals,
    validExpense, roundCent, settleLoop, settleLoopF, debtorsOf, creditorsOf, min_def,
    List.filter]
  simp [settleLoopF, validExpense, List.filter]
  norm_num [settleLoopF, roundCent, min_def, validExpense, List.filter]

/-! Helper lemmas about list sums. -/

theorem sum_map_add {α : Type} (f g : α → ℚ) (l : List α) :
    (l.map fun a => f a + g a).sum = (l.map f).sum + (l.map g).sum := by
  induction l with
  | nil => simp
  | cons a l ih => simp only [List.map_cons, List.sum_cons, ih]; ring

theorem sum_map_sub {α : Type} (f g : α → ℚ) (l : List α) :
    (l.map fun a => f a - g a).sum = (l.map f).sum - (l.map g).sum := by
  induction l with
  | nil => simp
  | cons a l ih => simp only [List.map_cons, List.sum_cons, ih]; ring

theorem sum_map_nonneg {α : Type} (f : α → ℚ) (l : List α)
    (h : ∀ a ∈ l, 0 ≤ f a) : 0 ≤ (l.map f).sum := by
  induction l with
  | nil => simp
  | cons a l ih =>
      simp only [List.map_cons, List.sum_cons]
      have ha := h a (by simp)
      have hl := ih fun a ha => h a (by simp [ha])
      linarith

theorem abs_sum_map_le {α : Type} (f : α → ℚ) (l : List α) :
    |(l.map f).sum| ≤ (l.map fun a => |f a|).sum := by
  induction l with
  | nil => simp
  | cons a l ih =>
      simp only [List.map_cons, List.sum_cons]
      calc |f a + (l.map f).sum| ≤ |f a| + |(l.map f).sum| := abs_add _ _
        _ ≤ |f a| + (l.map fun a => |f a|).sum := by linarith

theorem sum_map_le_length_mul {α : Type} (f : α → ℚ) (l : List α) (c : ℚ)
    (h : ∀ a ∈ l, f a ≤ c) : (l.map f).sum ≤ l.length * c := by
  induction l with
  | nil => simp
  | cons a l ih =>
      simp only [List.map_cons, List.sum_cons, List.length_cons]
      have ha := h a (by simp)
      have hl := ih fun a ha => h a (by simp [ha])
      push_cast
      linarith

/-! Properties of the cent rounding. -/

theorem roundCent_isCent (x : ℚ) : IsCent (roundCent x) := by
  unfold roundCent
  split
  · exact ⟨⌊x * 100 + 1 / 2⌋, rfl⟩
  · exact ⟨-⌊-(x * 100) + 1 / 2⌋, by push_cast; ring⟩

theorem roundCent_close (x : ℚ) : |roundCent x - x| ≤ 1 / 200 := by
  unfold roundCent
  split
  · have h1 : ((⌊x * 100 + 1 / 2⌋ : ℤ) : ℚ) ≤ x * 100 + 1 / 2 := Int.floor_le _
    have h2 : x * 100 + 1 / 2 < (⌊x * 100 + 1 / 2⌋ : ℤ) + 1 := Int.lt_floor_add_one _
    rw [abs_le]
    constructor <;> linarith
  · have h1 : ((⌊-(x * 100) + 1 / 2⌋ : ℤ) : ℚ) ≤ -(x * 100) + 1 / 2 := Int.floor_le _
    have h2 : -(x * 100) + 1 / 2 < (⌊-(x * 100) + 1 / 2⌋ : ℤ) + 1 := Int.lt_floor_add_one _
    rw [abs_le]
    constructor <;> linarith

/-- A cent value that is nonnegative and below one cent is zero. -/
theorem IsCent.eq_zero {x : ℚ} (hc : IsCent x) (h0 : 0 ≤ x) (h1 : x < 1 / 100) :
    x = 0 := by
  obtain ⟨k, rfl⟩ := hc
  have hk0 : (0 : ℤ) ≤ k := by exact_mod_cast (by linarith : (0 : ℚ) ≤ (k : ℚ))
  have hk1 : (k : ℤ) < 1 := by exact_mod_cast (by linarith : (k : ℚ) < 1)
  have : k = 0 := by omega
  simp [this]

theorem IsCent.sub {x y : ℚ} (hx : IsCent x) (hy : IsCent y) : IsCent (x - y) := by
  obtain ⟨a, rfl⟩ := hx
  obtain ⟨b, rfl⟩ := hy
  exact ⟨a - b, by push_cast; ring⟩

theorem IsCent.neg {x : ℚ} (hx : IsCent x) : IsCent (-x) := by
  obtain ⟨a, rfl⟩ := hx
  exact ⟨-a, by push_cast; ring⟩

theorem IsCent.min {x y : ℚ} (hx : IsCent x) (hy : IsCent y) : IsCent (min x y) := by
  rcases le_total x y with h | h
  · rwa [min_eq_left h]
  · rwa [min_eq_right h]

/-! Characterisation of the aggregation fold. -/

theorem addOwed_some {ps : List String} {share : ℚ} {t t2 : String → Balance}
    {names : List String} (h : addOwed ps share t names = some t2) :
    (∀ n ∈ names, n ∈ ps) ∧
      ∀ m, t2 m = ⟨(t m).paid, (t m).owed + share * (names.count m : ℚ)⟩ := by
  induction names generalizing t with
  | nil =>
      simp only [addOwed, Option.some_inj] at h
      subst h
      exact ⟨by simp, fun m => by simp⟩
  | cons n ns ih =>
      simp only [addOwed] at h
      split at h
      case isTrue hn =>
        obtain ⟨hmem, hfun⟩ := ih h
        refine ⟨?_, fun m => ?_⟩
        · intro m hm
          rcases List.mem_cons.mp hm with rfl | hm
          · exact hn
          · exact hmem m hm
        · rw [hfun m]
          by_cases hmn : m = n
          · subst hmn
            simp only [if_pos rfl, List.count_cons, beq_self_eq_true, if_true]
            refine congrArg (Balance.mk _) ?_
            push_cast
            ring
          · simp only [if_neg hmn, List.count_cons]
            have hne : (m == n) = false := beq_eq_false_iff_ne.mpr hmn
            simp [hne]
            exact Or.inl fun hc => hmn hc.symm
      case isFalse hn => simp at h

theorem addOwed_isSome (ps : List String) (share : ℚ) (t : String → Balance)
    (names : List String) (h : ∀ n ∈ names, n ∈ ps) :
    (addOwed ps share t names).isSome = true := by
  induction names generalizing t with
  | nil => simp [addOwed]
  | cons n ns ih =>
      have hn : n ∈ ps := h n (by simp)
      simp only [addOwed, if_pos hn]
      exact ih _ fun m hm => h m (by simp [hm])

theorem applyExpense_some {ps : List String} {t t2 : String → Balance} {e : Expense}
    (h : applyExpense ps t e = some t2) :
    KnownNames ps e ∧
      ∀ m, t2 m = ⟨(t m).paid + (if e.payer = m then e.amount else 0),
        (t m).owed + e.amount / (e.sharedBy.length : ℚ) * (e.sharedBy.count m : ℚ)⟩ := by
  simp only [applyExpense] at h
  split at h
  case isTrue hp =>
    obtain ⟨hmem, hfun⟩ := addOwed_some h
    refine ⟨⟨hp, hmem⟩, fun m => ?_⟩
    rw [hfun m]
    by_cases hm : m = e.payer
    · subst hm
      simp
    · have hmp : ¬(e.payer = m) := fun hc => hm hc.symm
      simp [if_neg hm, if_neg hmp]
  case isFalse hp => simp at h

theorem applyExpense_isSome (ps : List String) (t : String → Balance) (e : Expense)
    (h : KnownNames ps e) : (applyExpense ps t e).isSome = true := by
  simp only [applyExpense, if_pos h.1]
  exact addOwed_isSome _ _ _ _ h.2

theorem aggregate_some {ps : List String} {t t2 : String → Balance} {es : List Expense}
    (h : aggregateExpenses ps t es = some t2) :
    (∀ e ∈ es, KnownNames ps e) ∧
      ∀ m, t2 m = ⟨(t m).paid + paidSum m es, (t m).owed + owedSum m es⟩ := by
  induction es generalizing t with
  | nil =>
      simp only [aggregateExpenses, Option.some_inj] at h
      subst h
      exact ⟨by simp, fun m => by simp [paidSum, owedSum]⟩
  | cons e es ih =>
      simp only [aggregateExpenses] at h
      cases hae : applyExpense ps t e with
      | none => rw [hae] at h; simp at h
      | some t1 =>
          rw [hae] at h
          obtain ⟨hk, hf⟩ := applyExpense_some hae
          obtain ⟨hks, hfs⟩ := ih h
          refine ⟨?_, fun m => ?_⟩
          · intro e2 he2
            rcases List.mem_cons.mp he2 with rfl | he2
            · exact hk
            · exact hks e2 he2
          · rw [hfs m, hf m]
            simp only [paidSum, owedSum, List.map_cons, List.sum_cons, Balance.mk.injEq]
            constructor <;> ring

theorem aggregate_isSome (ps : List String) (t : String → Balance) (es : List Expense)
    (h : ∀ e ∈ es, KnownNames ps e) :
    (aggregateExpenses ps t es).isSome = true := by
  induction es generalizing t with
  | nil => simp [aggregateExpenses]
  | cons e es ih =>
      have he : KnownNames ps e := h e (by simp)
      have h1 := applyExpense_isSome ps t e he
      obtain ⟨t1, ht1⟩ := Option.isSome_iff_exists.mp h1
      simp only [aggregateExpenses, ht1]
      exact ih _ fun e2 he2 => h e2 (by simp [he2])

theorem validExpense_iff (e : Expense) :
    validExpense e = true ↔ 0 < e.amount ∧ e.payer ≠ "" ∧ 0 < e.sharedBy.length := by
  simp [validExpense, and_assoc]

/-! Sums over the participant list. -/

theorem map_congr_fn {α β : Type} {l : List α} {f g : α → β}
    (h : ∀ a ∈ l, f a = g a) : l.map f = l.map g := by
  induction l with
  | nil => rfl
  | cons a l ih =>
      simp only [List.map_cons]
      rw [h a (by simp), ih fun a ha => h a (by simp [ha])]

theorem sum_map_mul_const {α : Type} (c : ℚ) (f : α → ℚ) (l : List α) :
    (l.map fun a => c * f a).sum = c * (l.map f).sum := by
  induction l with
  | nil => simp
  | cons a l ih => simp only [List.map_cons, List.sum_cons, ih]; ring

theorem sum_ite_not_mem (ps : List String) (m : String) (a : ℚ) (hm : m ∉ ps) :
    (ps.map fun n => if m = n then a else 0).sum = 0 := by
  induction ps with
  | nil => simp
  | cons p ps ih =>
      simp only [List.map_cons, List.sum_cons]
      have hmp : ¬(m = p) := fun hc => hm (by simp [hc])
      rw [if_neg hmp, ih fun hc => hm (by simp [hc])]
      ring

theorem sum_ite_mem (ps : List String) (m : String) (a : ℚ) (hnd : ps.Nodup)
    (hm : m ∈ ps) :
    (ps.map fun n => if m = n then a else 0).sum = a := by
  induction ps with
  | nil => simp at hm
  | cons p ps ih =>
      simp only [List.map_cons, List.sum_cons]
      rcases List.mem_cons.mp hm with rfl | hm2
      · rw [if_pos rfl, sum_ite_not_mem _ _ _ (List.nodup_cons.mp hnd).1]
        ring
      · have hmp : ¬(m = p) := by
          intro hc
          subst hc
          exact (List.nodup_cons.mp hnd).1 hm2
        rw [if_neg hmp, ih (List.nodup_cons.mp hnd).2 hm2]
        ring

theorem sum_paidSum (ps : List String) (es : List Expense) (hnd : ps.Nodup)
    (h : ∀ e ∈ es, e.payer ∈ ps) :
    (ps.map fun n => paidSum n es).sum = (es.map Expense.amount).sum := by
  induction es with
  | nil => simp [paidSum]
  | cons e es ih =>
      have h1 : (ps.map fun n => paidSum n (e :: es)).sum
          = (ps.map fun n => (if e.payer = n then e.amount else 0) + paidSum n es).sum := by
        congr 1
      rw [h1, sum_map_add, sum_ite_mem ps e.payer e.amount hnd (h e (by simp)),
        ih fun e2 he2 => h e2 (by simp [he2])]
      simp

theorem sum_count (ps names : List String) (hnd : ps.Nodup)
    (h : ∀ n ∈ names, n ∈ ps) :
    (ps.map fun n => ((names.count n : ℕ) : ℚ)).sum = (names.length : ℚ) := by
  induction names with
  | nil => simp
  | cons s ss ih =>
      have h1 : (ps.map fun n => (((s :: ss).count n : ℕ) : ℚ)).sum
          = (ps.map fun n => ((ss.count n : ℕ) : ℚ) + if s = n then 1 else 0).sum := by
        congr 1
        apply map_congr_fn
        intro n hn
        simp only [List.count_cons]
        by_cases hns : n = s
        · subst hns
          simp
        · have hne : (n == s) = false := beq_eq_false_iff_ne.mpr hns
          have hne2 : ¬(s = n) := fun hc => hns hc.symm
          simp [hne, hne2]
      rw [h1, sum_map_add, ih fun n hn => h n (by simp [hn]),
        sum_ite_mem ps s 1 hnd (h s (by simp))]
      push_cast [List.length_cons]
      ring

theorem sum_owedSum (ps : List String) (es : List Expense) (hnd : ps.Nodup)
    (h : ∀ e ∈ es, (∀ n ∈ e.sharedBy, n ∈ ps) ∧ e.sharedBy.length ≠ 0) :
    (ps.map fun n => owedSum n es).sum = (es.map Expense.amount).sum := by
  induction es with
  | nil => simp [owedSum]
  | cons e es ih =>
      have h1 : (ps.map fun n => owedSum n (e :: es)).sum
          = (ps.map fun n =>
              e.amount / (e.sharedBy.length : ℚ) * ((e.sharedBy.count n : ℕ) : ℚ)
                + owedSum n es).sum := by
        congr 1
      have hlen : ((e.sharedBy.length : ℕ) : ℚ) ≠ 0 :=
        Nat.cast_ne_zero.mpr (h e (by simp)).2
      rw [h1, sum_map_add, sum_map_mul_const,
        sum_count ps e.sharedBy hnd (h e (by simp)).1,
        div_mul_cancel₀ e.amount hlen,
        ih fun e2 he2 => h e2 (by simp [he2])]
      simp

/-- Exact conservation: before rounding, the per-participant nets of a
successful aggregation sum to zero. -/
theorem netSum_exact (ps : List String) (es : List Expense) (t : String → Balance)
    (hnd : ps.Nodup) (hagg : aggregateExpenses ps initTotals es = some t)
    (hlen : ∀ e ∈ es, e.sharedBy.length ≠ 0) :
    (ps.map fun n => (t n).paid - (t n).owed).sum = 0 := by
  obtain ⟨hk, hf⟩ := aggregate_some hagg
  have h1 : (ps.map fun n => (t n).paid - (t n).owed).sum
      = (ps.map fun n => paidSum n es - owedSum n es).sum := by
    congr 1
    apply map_congr_fn
    intro n hn
    rw [hf n]
    simp [initTotals]
  rw [h1, sum_map_sub, sum_paidSum ps es hnd fun e he => (hk e he).1,
    sum_owedSum ps es hnd fun e he => ⟨(hk e he).2, hlen e he⟩]
  ring

/-! Small unfolding lemmas. -/

theorem paidBy_cons (n : String) (t : Transfer) (ts : List Transfer) :
    paidBy n (t :: ts) = (if t.from_ = n then t.amount else 0) + paidBy n ts := by
  simp [paidBy]

theorem recvBy_cons (n : String) (t : Transfer) (ts : List Transfer) :
    recvBy n (t :: ts) = (if t.to_ = n then t.amount else 0) + recvBy n ts := by
  simp [recvBy]

theorem sumOf_cons (n : String) (p : String × ℚ) (l : List (String × ℚ)) :
    sumOf n (p :: l) = (if p.1 = n then p.2 else 0) + sumOf n l := by
  simp [sumOf]

theorem sumAmounts_cons (p : String × ℚ) (l : List (String × ℚ)) :
    sumAmounts (p :: l) = p.2 + sumAmounts l := by
  simp [sumAmounts]

theorem sumAmounts_pos {l : List (String × ℚ)} (h : ∀ p ∈ l, 1 / 100 ≤ p.2)
    (hne : l ≠ []) : 0 < sumAmounts l := by
  cases l with
  | nil => simp at hne
  | cons p ps =>
      have h0 : 0 ≤ sumAmounts ps :=
        sum_map_nonneg _ _ fun a ha => le_trans (by norm_num) (h a (by simp [ha]))
      have hp := h p (by simp)
      rw [sumAmounts_cons]
      linarith

/-! Behaviour of the greedy settlement loop. -/

theorem settleLoopF_names (fuel : ℕ) :
    ∀ (D C : List (String × ℚ)) (t : Transfer), t ∈ settleLoopF fuel D C →
      t.from_ ∈ D.map Prod.fst ∧ t.to_ ∈ C.map Prod.fst := by
  induction fuel with
  | zero =>
      intro D C t ht
      match D, C with
      | [], _ => simp [settleLoopF] at ht
      | _ :: _, [] => simp [settleLoopF] at ht
      | _ :: _, _ :: _ => simp [settleLoopF] at ht
  | succ fuel ih =>
      intro D C t ht
      match D, C with
      | [], _ => simp [settleLoopF] at ht
      | _ :: _, [] => simp [settleLoopF] at ht
      | (dn, da) :: ds, (cn, ca) :: cs =>
          rw [settleLoopF] at ht
          rcases List.mem_cons.mp ht with rfl | ht2
          · simp
          · split at ht2 <;> [skip; split at ht2] <;>
              [split at ht2; skip; skip] <;>
              · obtain ⟨hf, ht⟩ := ih _ _ _ ht2
                constructor <;> simp_all

theorem settleLoopF_amounts (fuel : ℕ) :
    ∀ (D C : List (String × ℚ)),
      (∀ p ∈ D, 1 / 100 ≤ p.2) → (∀ p ∈ C, 1 / 100 ≤ p.2) →
      ∀ t ∈ settleLoopF fuel D C, 1 / 100 ≤ t.amount := by
  induction fuel with
  | zero =>
      intro D C hD hC t ht
      match D, C with
      | [], _ => simp [settleLoopF] at ht
      | _ :: _, [] => simp [settleLoopF] at ht
      | _ :: _, _ :: _ => simp [settleLoopF] at ht
  | succ fuel ih =>
      intro D C hD hC t ht
      match D, C with
      | [], _ => simp [settleLoopF] at ht
      | _ :: _, [] => simp [settleLoopF] at ht
      | (dn, da) :: ds, (cn, ca) :: cs =>
          have hda := hD (dn, da) (by simp)
          have hca := hC (cn, ca) (by simp)
          have hDs : ∀ p ∈ ds, 1 / 100 ≤ p.2 := fun p hp => hD p (by simp [hp])
          have hCs : ∀ p ∈ cs, 1 / 100 ≤ p.2 := fun p hp => hC p (by simp [hp])
          rw [settleLoopF] at ht
          rcases List.mem_cons.mp ht with rfl | ht2
          · exact le_min hda hca
          · by_cases h1 : da - min da ca < 1 / 100 <;>
              by_cases h2 : ca - min da ca < 1 / 100 <;>
              simp only [h1, h2, if_true, if_false] at ht2
            · exact ih ds cs hDs hCs t ht2
            · refine ih ds ((cn, ca - min da ca) :: cs) hDs ?_ t ht2
              intro p hp
              rcases List.mem_cons.mp hp with rfl | hp
              · exact not_lt.mp h2
              · exact hCs p hp
            · refine ih ((dn, da - min da ca) :: ds) cs ?_ hCs t ht2
              intro p hp
              rcases List.mem_cons.mp hp with rfl | hp
              · exact not_lt.mp h1
              · exact hDs p hp
            · refine ih ((dn, da - min da ca) :: ds) ((cn, ca - min da ca) :: cs) ?_ ?_ t ht2
              · intro p hp
                rcases List.mem_cons.mp hp with rfl | hp
                · exact not_lt.mp h1
                · exact hDs p hp
              · intro p hp
                rcases List.mem_cons.mp hp with rfl | hp
                · exact not_lt.mp h2
                · exact hCs p hp

theorem settleLoopF_length (fuel : ℕ) :
    ∀ D C : List (String × ℚ),
      (settleLoopF fuel D C).length ≤ D.length + C.length - 1 := by
  induction fuel with
  | zero =>
      intro D C
      match D, C with
      | [], _ => simp [settleLoopF]
      | _ :: _, [] => simp [settleLoopF]
      | _ :: _, _ :: _ => simp [settleLoopF]
  | succ fuel ih =>
      intro D C
      match D, C with
      | [], _ => simp [settleLoopF]
      | _ :: _, [] => simp [settleLoopF]
      | (dn, da) :: ds, (cn, ca) :: cs =>
          rw [settleLoopF]
          by_cases h1 : da - min da ca < 1 / 100 <;>
            by_cases h2 : ca - min da ca < 1 / 100 <;>
            simp only [h1, h2, if_true, if_false, List.length_cons]
          · have := ih ds cs
            omega
          · have := ih ds ((cn, ca - min da ca) :: cs)
            simp only [List.length_cons] at this ⊢
            omega
          · have := ih ((dn, da - min da ca) :: ds) cs
            simp only [List.length_cons] at this ⊢
            omega
          · exfalso
            rcases le_total da ca with h | h
            · rw [min_eq_left h] at h1
              simp at h1
            · rw [min_eq_right h] at h2
              simp at h2

/-- When total debts equal total credits, the greedy loop pays every debtor
amount out in full and every creditor amount in full: the emitted transfers
sum, per name, to exactly the posted amounts on each side. -/
theorem settleLoopF_exact (fuel : ℕ) :
    ∀ D C : List (String × ℚ),
      D.length + C.length ≤ fuel →
      (∀ p ∈ D, IsCent p.2 ∧ 1 / 100 ≤ p.2) →
      (∀ p ∈ C, IsCent p.2 ∧ 1 / 100 ≤ p.2) →
      sumAmounts D = sumAmounts C →
      ∀ n, paidBy n (settleLoopF fuel D C) = sumOf n D ∧
           recvBy n (settleLoopF fuel D C) = sumOf n C := by
  induction fuel with
  | zero =>
      intro D C hlen hD hC hsum n
      match D, C with
      | [], [] => simp [settleLoopF, paidBy, recvBy, sumOf]
      | [], _ :: _ => simp at hlen
      | _ :: _, _ => simp at hlen
  | succ fuel ih =>
      intro D C hlen hD hC hsum n
      match D, C with
      | [], [] => simp [settleLoopF, paidBy, recvBy, sumOf]
      | [], c :: cs =>
          exfalso
          have hpos : 0 < sumAmounts (c :: cs) :=
            sumAmounts_pos (fun p hp => (hC p hp).2) (by simp)
          rw [← hsum] at hpos
          simp [sumAmounts] at hpos
      | d :: ds, [] =>
          exfalso
          have hpos : 0 < sumAmounts (d :: ds) :=
            sumAmounts_pos (fun p hp => (hD p hp).2) (by simp)
          rw [hsum] at hpos
          simp [sumAmounts] at hpos
      | (dn, da) :: ds, (cn, ca) :: cs =>
          obtain ⟨hdaC, hdaLe⟩ := hD (dn, da) (by simp)
          obtain ⟨hcaC, hcaLe⟩ := hC (cn, ca) (by simp)
          have hDs : ∀ p ∈ ds, IsCent p.2 ∧ 1 / 100 ≤ p.2 :=
            fun p hp => hD p (by simp [hp])
          have hCs : ∀ p ∈ cs, IsCent p.2 ∧ 1 / 100 ≤ p.2 :=
            fun p hp => hC p (by simp [hp])
          have hminC : IsCent (min da ca) := hdaC.min hcaC
          have hmin_d : min da ca ≤ da := min_le_left _ _
          have hmin_c : min da ca ≤ ca := min_le_right _ _
          rw [sumAmounts_cons, sumAmounts_cons] at hsum
          dsimp only at hdaC hdaLe hcaC hcaLe hsum
          simp only [List.length_cons] at hlen
          rw [settleLoopF]
          by_cases h1 : da - min da ca < 1 / 100 <;>
            by_cases h2 : ca - min da ca < 1 / 100 <;>
            simp only [h1, h2, if_true, if_false]
          · have hd0 : da - min da ca = 0 :=
              (hdaC.sub hminC).eq_zero (by linarith) h1
            have hc0 : ca - min da ca = 0 :=
              (hcaC.sub hminC).eq_zero (by linarith) h2
            obtain ⟨ihp, ihr⟩ :=
              ih ds cs (by omega) hDs hCs (by linarith) n
            rw [paidBy_cons, recvBy_cons, sumOf_cons, sumOf_cons, ihp, ihr]
            constructor
            · by_cases hdn : dn = n <;> simp [hdn] <;> linarith
            · by_cases hcn : cn = n <;> simp [hcn] <;> linarith
          · have hd0 : da - min da ca = 0 :=
              (hdaC.sub hminC).eq_zero (by linarith) h1
            obtain ⟨ihp, ihr⟩ :=
              ih ds ((cn, ca - min da ca) :: cs) (by simp; omega)
                hDs
                (fun p hp => by
                  rcases List.mem_cons.mp hp with rfl | hp
                  · exact ⟨hcaC.sub hminC, not_lt.mp h2⟩
                  · exact hCs p hp)
                (by rw [sumAmounts_cons]; dsimp only; linarith) n
            rw [paidBy_cons, recvBy_cons, ihp, ihr, sumOf_cons, sumOf_cons, sumOf_cons]
            constructor
            · by_cases hdn : dn = n <;> simp [hdn] <;> linarith
            · by_cases hcn : cn = n <;> simp [hcn] <;> linarith
          · have hc0 : ca - min da ca = 0 :=
              (hcaC.sub hminC).eq_zero (by linarith) h2
            obtain ⟨ihp, ihr⟩ :=
              ih ((dn, da - min da ca) :: ds) cs (by simp; omega)
                (fun p hp => by
                  rcases List.mem_cons.mp hp with rfl | hp
                  · exact ⟨hdaC.sub hminC, not_lt.mp h1⟩
                  · exact hDs p hp)
                hCs
                (by rw [sumAmounts_cons]; dsimp only; linarith) n
            rw [paidBy_cons, recvBy_cons, ihp, ihr, sumOf_cons, sumOf_cons, sumOf_cons]
            constructor
            · by_cases hdn : dn = n <;> simp [hdn] <;> linarith
            · by_cases hcn : cn = n <;> simp [hcn] <;> linarith
          · exfalso
            rcases le_total da ca with h | h
            · rw [min_eq_left h] at h1
              simp at h1
            · rw [min_eq_right h] at h2
              simp at h2

theorem settleLoop_exact (D C : List (String × ℚ))
    (hD : ∀ p ∈ D, IsCent p.2 ∧ 1 / 100 ≤ p.2)
    (hC : ∀ p ∈ C, IsCent p.2 ∧ 1 / 100 ≤ p.2)
    (hsum : sumAmounts D = sumAmounts C) (n : String) :
    paidBy n (settleLoop D C) = sumOf n D ∧
      recvBy n (settleLoop D C) = sumOf n C :=
  settleLoopF_exact (D.length + C.length) D C le_rfl hD hC hsum n

/-! Lookups and partitions over the nets list. -/

theorem netLookup_cons (p : String × ℚ) (l : List (String × ℚ)) (n : String) :
    netLookup (p :: l) n = if p.1 = n then p.2 else netLookup l n := by
  unfold netLookup
  by_cases h : p.1 = n
  · rw [List.find?_cons_of_pos _ (by simp [h]), if_pos h]
  · rw [List.find?_cons_of_neg _ (by simp [h]), if_neg h]

theorem netLookup_map (ps : List String) (g : String → ℚ) (n : String)
    (hn : n ∈ ps) : netLookup (ps.map fun m => (m, g m)) n = g n := by
  induction ps with
  | nil => simp at hn
  | cons p ps ih =>
      rw [List.map_cons, netLookup_cons]
      dsimp only
      by_cases hpn : p = n
      · rw [if_pos hpn, hpn]
      · rw [if_neg hpn]
        rcases List.mem_cons.mp hn with rfl | hn2
        · exact absurd rfl hpn
        · exact ih hn2

theorem debtorsOf_cons (p : String × ℚ) (l : List (String × ℚ)) :
    debtorsOf (p :: l) =
      if p.2 < -(1 / 100) then (p.1, -p.2) :: debtorsOf l else debtorsOf l := by
  unfold debtorsOf
  rw [List.filter_cons]
  by_cases h : p.2 < -(1 / 100)
  · rw [if_pos (decide_eq_true h), if_pos h, List.map_cons]
  · rw [if_neg fun hc => h (of_decide_eq_true hc), if_neg h]

theorem creditorsOf_cons (p : String × ℚ) (l : List (String × ℚ)) :
    creditorsOf (p :: l) =
      if 1 / 100 < p.2 then (p.1, p.2) :: creditorsOf l else creditorsOf l := by
  unfold creditorsOf
  rw [List.filter_cons]
  by_cases h : 1 / 100 < p.2
  · rw [if_pos (decide_eq_true h), if_pos h, List.map_cons]
  · rw [if_neg fun hc => h (of_decide_eq_true hc), if_neg h]

theorem sumOf_debtors_not_mem (ps : List String) (g : String → ℚ) (n : String)
    (hn : n ∉ ps) : sumOf n (debtorsOf (ps.map fun m => (m, g m))) = 0 := by
  induction ps with
  | nil => simp [debtorsOf, sumOf]
  | cons p ps ih =>
      have hpn : ¬(p = n) := fun hc => hn (by simp [hc])
      have hrec := ih fun hc => hn (by simp [hc])
      rw [List.map_cons, debtorsOf_cons]
      by_cases h : ((p, g p) : String × ℚ).2 < -(1 / 100)
      · rw [if_pos h, sumOf_cons]
        dsimp only
        rw [if_neg hpn, hrec]
        ring
      · rw [if_neg h, hrec]

theorem sumOf_creditors_not_mem (ps : List String) (g : String → ℚ) (n : String)
    (hn : n ∉ ps) : sumOf n (creditorsOf (ps.map fun m => (m, g m))) = 0 := by
  induction ps with
  | nil => simp [creditorsOf, sumOf]
  | cons p ps ih =>
      have hpn : ¬(p = n) := fun hc => hn (by simp [hc])
      have hrec := ih fun hc => hn (by simp [hc])
      rw [List.map_cons, creditorsOf_cons]
      by_cases h : 1 / 100 < ((p, g p) : String × ℚ).2
      · rw [if_pos h, sumOf_cons]
        dsimp only
        rw [if_neg hpn, hrec]
        ring
      · rw [if_neg h, hrec]

theorem sumOf_debtors (ps : List String) (g : String → ℚ) (n : String)
    (hnd : ps.Nodup) (hn : n ∈ ps) :
    sumOf n (debtorsOf (ps.map fun m => (m, g m)))
      = if g n < -(1 / 100) then -(g n) else 0 := by
  induction ps with
  | nil => simp at hn
  | cons p ps ih =>
      obtain ⟨hp1, hp2⟩ := List.nodup_cons.mp hnd
      rw [List.map_cons, debtorsOf_cons]
      rcases List.mem_cons.mp hn with rfl | hn2
      · by_cases h : ((n, g n) : String × ℚ).2 < -(1 / 100)
        · rw [if_pos h, sumOf_cons]
          dsimp only
          dsimp only at h
          rw [if_pos rfl, sumOf_debtors_not_mem ps g n hp1, if_pos h]
          ring
        · dsimp only at h
          rw [if_neg h, sumOf_debtors_not_mem ps g n hp1, if_neg h]
      · have hpn : ¬(p = n) := by
          intro hc
          subst hc
          exact hp1 hn2
        by_cases h : ((p, g p) : String × ℚ).2 < -(1 / 100)
        · rw [if_pos h, sumOf_cons]
          dsimp only
          rw [if_neg hpn, ih hp2 hn2]
          ring
        · rw [if_neg h, ih hp2 hn2]

theorem sumOf_creditors (ps : List String) (g : String → ℚ) (n : String)
    (hnd : ps.Nodup) (hn : n ∈ ps) :
    sumOf n (creditorsOf (ps.map fun m => (m, g m)))
      = if 1 / 100 < g n then g n else 0 := by
  induction ps with
  | nil => simp at hn
  | cons p ps ih =>
      obtain ⟨hp1, hp2⟩ := List.nodup_cons.mp hnd
      rw [List.map_cons, creditorsOf_cons]
      rcases List.mem_cons.mp hn with rfl | hn2
      · by_cases h : 1 / 100 < ((n, g n) : String × ℚ).2
        · rw [if_pos h, sumOf_cons]
          dsimp only
          dsimp only at h
          rw [if_pos rfl, sumOf_creditors_not_mem ps g n hp1, if_pos h]
          ring
        · dsimp only at h
          rw [if_neg h, sumOf_creditors_not_mem ps g n hp1, if_neg h]
      · have hpn : ¬(p = n) := by
          intro hc
          subst hc
          exact hp1 hn2
        by_cases h : 1 / 100 < ((p, g p) : String × ℚ).2
        · rw [if_pos h, sumOf_cons]
          dsimp only
          rw [if_neg hpn, ih hp2 hn2]
          ring
        · rw [if_neg h, ih hp2 hn2]

theorem debtors_amounts (nets : List (String × ℚ))
    (h : ∀ p ∈ nets, IsCent p.2) :
    ∀ p ∈ debtorsOf nets, IsCent p.2 ∧ 1 / 100 ≤ p.2 := by
  intro p hp
  unfold debtorsOf at hp
  obtain ⟨q, hq, rfl⟩ := List.mem_map.mp hp
  obtain ⟨hqm, hqc⟩ := List.mem_filter.mp hq
  have hlt : q.2 < -(1 / 100) := of_decide_eq_true hqc
  refine ⟨(h q hqm).neg, ?_⟩
  dsimp only
  linarith

theorem creditors_amounts (nets : List (String × ℚ))
    (h : ∀ p ∈ nets, IsCent p.2) :
    ∀ p ∈ creditorsOf nets, IsCent p.2 ∧ 1 / 100 ≤ p.2 := by
  intro p hp
  unfold creditorsOf at hp
  obtain ⟨q, hq, rfl⟩ := List.mem_map.mp hp
  obtain ⟨hqm, hqc⟩ := List.mem_filter.mp hq
  have hlt : 1 / 100 < q.2 := of_decide_eq_true hqc
  exact ⟨h q hqm, le_of_lt hlt⟩

theorem applyTransfersPay_eq (ts : List Transfer) :
    ∀ (f : String → ℚ) (n : String),
      applyTransfersPay f ts n = f n + paidBy n ts - recvBy n ts := by
  induction ts with
  | nil =>
      intro f n
      simp [applyTransfersPay, paidBy, recvBy]
  | cons t ts ih =>
      intro f n
      simp only [applyTransfersPay]
      rw [ih]
      simp only [applyTransferPay, paidBy_cons, recvBy_cons]
      ring

/-- Shape of a successful run: the nets are the rounded per-participant
balances of the filtered expenses, the settlement is the greedy loop on the
partitions of those nets, and the total spent is the rounded sum. -/
theorem calculateAdvanced_ok {ps : List String} {items : List Expense} {r : Result}
    (h : calculateAdvanced ps items = .ok r) :
    ∃ t, aggregateExpenses ps initTotals (items.filter validExpense) = some t ∧
      r.nets = ps.map (fun name => (name, roundCent ((t name).paid - (t name).owed))) ∧
      r.settlement = settleLoop (debtorsOf r.nets) (creditorsOf r.nets) ∧
      r.totalSpent = roundCent (((items.filter validExpense).map Expense.amount).sum) := by
  unfold calculateAdvanced at h
  split at h
  · simp at h
  · dsimp only at h
    split at h
    · simp at h
    · cases hagg : aggregateExpenses ps initTotals (items.filter validExpense) with
      | none => rw [hagg] at h; simp at h
      | some t =>
          rw [hagg] at h
          simp only [CalcOutcome.ok.injEq] at h
          subst h
          exact ⟨t, rfl, rfl, rfl, rfl⟩

/-! Claim theorems. -/

/-- C1 (amended): applying the produced transfers in order with the payment
orientation (adding `amount` to the `from` participant's net, subtracting it
from the `to` participant's net) leaves every participant's net balance
within 0.01 of zero, provided the participant names are distinct and the
total debtor amount equals the total creditor amount after rounding. -/
theorem settlement_drives_nets_to_zero (ps : List String) (items : List Expense)
    (r : Result) (hnd : ps.Nodup) (hok : calculateAdvanced ps items = .ok r)
    (hbal : sumAmounts (debtorsOf r.nets) = sumAmounts (creditorsOf r.nets)) :
    ∀ n ∈ ps, |applyTransfersPay (netLookup r.nets) r.settlement n| ≤ 1 / 100 := by
  obtain ⟨t, hagg, hnets, hsettle, htotal⟩ := calculateAdvanced_ok hok
  intro n hn
  rw [hnets] at hbal hsettle ⊢
  rw [hsettle]
  have hcentnets :
      ∀ p ∈ ps.map fun m => (m, roundCent ((t m).paid - (t m).owed)), IsCent p.2 := by
    intro p hp
    obtain ⟨m, hm, rfl⟩ := List.mem_map.mp hp
    exact roundCent_isCent _
  obtain ⟨hpaid, hrecv⟩ :=
    settleLoop_exact _ _ (debtors_amounts _ hcentnets) (creditors_amounts _ hcentnets)
      hbal n
  rw [applyTransfersPay_eq, hpaid, hrecv,
    netLookup_map ps (fun m => roundCent ((t m).paid - (t m).owed)) n hn,
    sumOf_debtors ps (fun m => roundCent ((t m).paid - (t m).owed)) n hnd hn,
    sumOf_creditors ps (fun m => roundCent ((t m).paid - (t m).owed)) n hnd hn]
  by_cases h1 : roundCent ((t n).paid - (t n).owed) < -(1 / 100)
  · have h2 : ¬(1 / 100 < roundCent ((t n).paid - (t n).owed)) := by linarith
    rw [if_pos h1, if_neg h2]
    have he : roundCent ((t n).paid - (t n).owed)
        + -roundCent ((t n).paid - (t n).owed) - 0 = 0 := by ring
    rw [he]
    norm_num
  · by_cases h2 : 1 / 100 < roundCent ((t n).paid - (t n).owed)
    · rw [if_neg h1, if_pos h2]
      have he : roundCent ((t n).paid - (t n).owed)
          + 0 - roundCent ((t n).paid - (t n).owed) = 0 := by ring
      rw [he]
      norm_num
    · rw [if_neg h1, if_neg h2]
      push_neg at h1 h2
      rw [abs_le]
      constructor <;> · dsimp only; linarith

/-- C2 (amended): with distinct participant names, the rounded nets of a
successful run sum to within half a cent per participant of zero. -/
theorem netSum_within_half_cent_each (ps : List String) (items : List Expense)
    (r : Result) (hnd : ps.Nodup) (hok : calculateAdvanced ps items = .ok r) :
    |sumAmounts r.nets| ≤ (ps.length : ℚ) / 200 := by
  obtain ⟨t, hagg, hnets, _, _⟩ := calculateAdvanced_ok hok
  have hlen : ∀ e ∈ items.filter validExpense, e.sharedBy.length ≠ 0 := by
    intro e he
    have hv := (validExpense_iff e).mp (List.mem_filter.mp he).2
    omega
  have hexact := netSum_exact ps (items.filter validExpense) t hnd hagg hlen
  rw [hnets]
  have hsa : sumAmounts (ps.map fun m => (m, roundCent ((t m).paid - (t m).owed)))
      = (ps.map fun m => roundCent ((t m).paid - (t m).owed)).sum := by
    unfold sumAmounts
    rw [List.map_map]
    congr 1
  rw [hsa]
  have hsplit : (ps.map fun m => roundCent ((t m).paid - (t m).owed)).sum
      = (ps.map fun m =>
          roundCent ((t m).paid - (t m).owed) - ((t m).paid - (t m).owed)).sum
        + (ps.map fun m => (t m).paid - (t m).owed).sum := by
    rw [← sum_map_add]
    congr 1
    exact map_congr_fn fun m _ => by ring
  rw [hsplit, hexact, add_zero]
  calc |(ps.map fun m =>
          roundCent ((t m).paid - (t m).owed) - ((t m).paid - (t m).owed)).sum|
      ≤ (ps.map fun m =>
          |roundCent ((t m).paid - (t m).owed) - ((t m).paid - (t m).owed)|).sum :=
        abs_sum_map_le _ _
    _ ≤ ps.length * (1 / 200) :=
        sum_map_le_length_mul _ _ _ fun m _ => roundCent_close _
    _ = (ps.length : ℚ) / 200 := by ring

/-- C4: permuting the expense list leaves the computed nets unchanged
(both runs have the same outcome kind, and on success identical nets). -/
theorem nets_perm_invariant (ps : List String) (items1 items2 : List Expense)
    (hperm : items1.Perm items2) :
    resultNets (calculateAdvanced ps items1) = resultNets (calculateAdvanced ps items2) := by
  unfold calculateAdvanced
  by_cases hp : ps.length = 0
  · rw [if_pos hp, if_pos hp]
  · rw [if_neg hp, if_neg hp]
    dsimp only
    have hfp : (items1.filter validExpense).Perm (items2.filter validExpense) :=
      hperm.filter _
    have hlen := hfp.length_eq
    by_cases he : (items1.filter validExpense).length = 0
    · rw [if_pos he, if_pos (by omega)]
    · rw [if_neg he, if_neg (by omega)]
      have hknown_iff : (∀ e ∈ items1.filter validExpense, KnownNames ps e) ↔
          (∀ e ∈ items2.filter validExpense, KnownNames ps e) := by
        constructor <;> intro h e he2
        · exact h e (hfp.mem_iff.mpr he2)
        · exact h e (hfp.mem_iff.mp he2)
      cases hagg1 : aggregateExpenses ps initTotals (items1.filter validExpense) with
      | none =>
          have h1 : ¬(∀ e ∈ items1.filter validExpense, KnownNames ps e) := by
            intro hk
            have hs := aggregate_isSome ps initTotals _ hk
            rw [hagg1] at hs
            simp at hs
          cases hagg2 : aggregateExpenses ps initTotals (items2.filter validExpense) with
          | none => rfl
          | some t2 => exact absurd (hknown_iff.mpr (aggregate_some hagg2).1) h1
      | some t1 =>
          have hk2 := hknown_iff.mp (aggregate_some hagg1).1
          obtain ⟨t2, hagg2⟩ :=
            Option.isSome_iff_exists.mp (aggregate_isSome ps initTotals _ hk2)
          rw [hagg2]
          dsimp only
          simp only [resultNets, Option.some_inj]
          apply map_congr_fn
          intro n hn
          rw [(aggregate_some hagg1).2 n, (aggregate_some hagg2).2 n]
          simp only [initTotals]
          have hps : paidSum n (items1.filter validExpense)
              = paidSum n (items2.filter validExpense) :=
            List.Perm.sum_eq (hfp.map _)
          have hos : owedSum n (items1.filter validExpense)
              = owedSum n (items2.filter validExpense) :=
            List.Perm.sum_eq (hfp.map _)
          rw [hps, hos]

/-- C5: the outcome is `NoParticipants` exactly for an empty participant
list, `NoValidExpenses` exactly when the filtered expense list is empty
(with participants present); under the documented name precondition these
two are the only error outcomes (the `TypeError` branch is unreachable), and
neither error carries totals or transfers. -/
theorem error_outcomes (ps : List String) (items : List Expense)
    (hknown : ∀ e ∈ items.filter validExpense, KnownNames ps e) :
    (calculateAdvanced ps items = .noParticipants ↔ ps = [])
  ∧ (calculateAdvanced ps items = .noValidExpenses ↔
      ps ≠ [] ∧ items.filter validExpense = [])
  ∧ calculateAdvanced ps items ≠ .typeError := by
  unfold calculateAdvanced
  by_cases hp : ps.length = 0
  · rw [if_pos hp]
    have hps : ps = [] := List.length_eq_zero.mp hp
    simp [hps]
  · rw [if_neg hp]
    dsimp only
    have hps : ps ≠ [] := fun hc => hp (by simp [hc])
    by_cases he : (items.filter validExpense).length = 0
    · rw [if_pos he]
      have hfe : items.filter validExpense = [] := List.length_eq_zero.mp he
      simp [hps, hfe]
    · rw [if_neg he]
      have hfe : items.filter validExpense ≠ [] := fun hc => he (by simp [hc])
      obtain ⟨t, ht⟩ :=
        Option.isSome_iff_exists.mp (aggregate_isSome ps initTotals _ hknown)
      rw [ht]
      simp [hps, hfe]

theorem mem_debtors_names {nets : List (String × ℚ)} {x : String}
    (h : x ∈ (debtorsOf nets).map Prod.fst) :
    ∃ v, (x, v) ∈ nets ∧ v < -(1 / 100) := by
  unfold debtorsOf at h
  rw [List.map_map] at h
  obtain ⟨q, hq, hxq⟩ := List.mem_map.mp h
  obtain ⟨hqm, hqc⟩ := List.mem_filter.mp hq
  refine ⟨q.2, ?_, of_decide_eq_true hqc⟩
  have hx : q.1 = x := hxq
  rw [← hx]
  exact hqm

theorem mem_creditors_names {nets : List (String × ℚ)} {x : String}
    (h : x ∈ (creditorsOf nets).map Prod.fst) :
    ∃ v, (x, v) ∈ nets ∧ 1 / 100 < v := by
  unfold creditorsOf at h
  rw [List.map_map] at h
  obtain ⟨q, hq, hxq⟩ := List.mem_map.mp h
  obtain ⟨hqm, hqc⟩ := List.mem_filter.mp hq
  refine ⟨q.2, ?_, of_decide_eq_true hqc⟩
  have hx : q.1 = x := hxq
  rw [← hx]
  exact hqm

theorem mem_nets_value {ps : List String} {g : String → ℚ} {x : String} {v : ℚ}
    (h : (x, v) ∈ ps.map fun m => (m, g m)) : v = g x := by
  obtain ⟨m, hm, hmv⟩ := List.mem_map.mp h
  obtain ⟨h1, h2⟩ := Prod.mk.injEq .. ▸ hmv
  rw [← h2, h1]

/-- C6: one aggregation step adds the full amount to the payer's paid total,
adds `amount / |sharedBy|` to the owed of exactly the members of `sharedBy`
(so a payer outside `sharedBy` accrues no owed share), and leaves everything
else unchanged; every participant starts at `paid = owed = 0`. -/
theorem applyExpense_updates (ps : List String) (t t2 : String → Balance)
    (e : Expense) (hok : applyExpense ps t e = some t2)
    (hnd : e.sharedBy.Nodup) :
    (t2 e.payer).paid = (t e.payer).paid + e.amount
  ∧ (∀ n, n ≠ e.payer → (t2 n).paid = (t n).paid)
  ∧ (∀ n ∈ e.sharedBy, (t2 n).owed = (t n).owed + e.amount / (e.sharedBy.length : ℚ))
  ∧ (∀ n, n ∉ e.sharedBy → (t2 n).owed = (t n).owed)
  ∧ (∀ n, initTotals n = ⟨0, 0⟩) := by
  obtain ⟨hk, hf⟩ := applyExpense_some hok
  refine ⟨?_, ?_, ?_, ?_, fun n => rfl⟩
  · rw [hf e.payer]
    simp
  · intro n hn
    rw [hf n]
    have : ¬(e.payer = n) := fun hc => hn hc.symm
    simp [this]
  · intro n hn
    rw [hf n]
    dsimp only
    rw [List.count_eq_one_of_mem hnd hn]
    simp
  · intro n hn
    rw [hf n]
    dsimp only
    rw [List.count_eq_zero_of_not_mem hn]
    simp

/-- C7: no produced transfer has `from` equal to `to`: with distinct
participant names, a name cannot appear both among the debtors and among the
creditors, and the loop only draws `from` from debtors and `to` from
creditors. -/
theorem no_self_transfer (ps : List String) (items : List Expense) (r : Result)
    (hnd : ps.Nodup) (hok : calculateAdvanced ps items = .ok r) :
    ∀ tr ∈ r.settlement, tr.from_ ≠ tr.to_ := by
  obtain ⟨t, hagg, hnets, hsettle, _⟩ := calculateAdvanced_ok hok
  intro tr htr heq
  rw [hsettle, hnets] at htr
  unfold settleLoop at htr
  obtain ⟨hfm, htm⟩ := settleLoopF_names _ _ _ _ htr
  obtain ⟨v1, hv1, hv1lt⟩ := mem_debtors_names hfm
  obtain ⟨v2, hv2, hv2gt⟩ := mem_creditors_names htm
  rw [heq] at hv1
  have e1 := mem_nets_value hv1
  have e2 := mem_nets_value hv2
  rw [e1] at hv1lt
  rw [e2] at hv2gt
  linarith

/-- C8: every produced transfer has a strictly positive amount: debtor and
creditor residuals stay at or above one cent while under the cursor, so each
emitted `min` is at least 0.01. -/
theorem transfer_amounts_positive (ps : List String) (items : List Expense)
    (r : Result) (hok : calculateAdvanced ps items = .ok r) :
    ∀ tr ∈ r.settlement, 0 < tr.amount := by
  obtain ⟨t, hagg, hnets, hsettle, _⟩ := calculateAdvanced_ok hok
  intro tr htr
  rw [hsettle, hnets] at htr
  unfold settleLoop at htr
  have hcentnets :
      ∀ p ∈ ps.map fun m => (m, roundCent ((t m).paid - (t m).owed)), IsCent p.2 := by
    intro p hp
    obtain ⟨m, hm, rfl⟩ := List.mem_map.mp hp
    exact roundCent_isCent _
  have h := settleLoopF_amounts _ _ _
    (fun p hp => (debtors_amounts _ hcentnets p hp).2)
    (fun p hp => (creditors_amounts _ hcentnets p hp).2) tr htr
  linarith

/-- C9: the greedy matching loop terminates (`settleLoop` is a total
function, its fuel `|debtors| + |creditors|` proven sufficient) and emits at
most `|debtors| + |creditors| - 1` transfers, since every iteration zeroes
the smaller residual and so advances at least one cursor. -/
theorem settleLoop_length_bound (D C : List (String × ℚ)) :
    (settleLoop D C).length ≤ D.length + C.length - 1 :=
  settleLoopF_length _ D C

/-- C10: the aggregation fold is total exactly under the full precondition
that the payer and every `sharedBy` name of each expense is a known
participant; the spec's weaker precondition (payer known) is not enough: an
expense whose `sharedBy` holds an unknown name hits the failing lookup even
though its payer is known. -/
theorem aggregation_totality :
    (∀ (ps : List String) (t : String → Balance) (es : List Expense),
        (∀ e ∈ es, KnownNames ps e) → (aggregateExpenses ps t es).isSome = true)
  ∧ aggregateExpenses ["A", "B"] initTotals [⟨"Lunch", 1, "A", ["C"]⟩] = none := by
  refine ⟨aggregate_isSome, ?_⟩
  rfl

/-- C1 as literally stated is false: with the spec text's orientation
(subtract the amount from the `from` participant's net, add it to the `to`
participant's net) the single transfer of the spec's own first scenario
drives B's net to -100, far outside 0.01 of zero. -/
theorem settlement_spec_orientation_fails :
    calculateAdvanced ["A", "B"] [⟨"Beer", 100, "A", ["A", "B"]⟩] =
      .ok ⟨[("A", 50), ("B", -50)], [⟨"B", "A", 50⟩], 100⟩
  ∧ applyTransfersSpec (netLookup [("A", 50), ("B", -50)]) [⟨"B", "A", 50⟩] "B" = -100
  ∧ ¬(|applyTransfersSpec (netLookup [("A", 50), ("B", -50)]) [⟨"B", "A", 50⟩] "B"|
      ≤ 1 / 100) := by
  refine ⟨scenario1_ok, ?_, ?_⟩
  · simp [applyTransfersSpec, applyTransferSpec, netLookup, List.find?]
    norm_num
  · simp [applyTransfersSpec, applyTransferSpec, netLookup, List.find?]
    norm_num

/-- Witness for `settlement_drives_nets_to_zero` at the spec's first
scenario, whose rounded nets balance exactly. -/
theorem settlement_drives_nets_to_zero_witness :
    (["A", "B"] : List String).Nodup
  ∧ calculateAdvanced ["A", "B"] [⟨"Beer", 100, "A", ["A", "B"]⟩] =
      .ok ⟨[("A", 50), ("B", -50)], [⟨"B", "A", 50⟩], 100⟩
  ∧ sumAmounts (debtorsOf [("A", (50 : ℚ)), ("B", -50)])
      = sumAmounts (creditorsOf [("A", (50 : ℚ)), ("B", -50)])
  ∧ ∀ n ∈ (["A", "B"] : List String),
      |applyTransfersPay
          (netLookup (Result.mk [("A", (50 : ℚ)), ("B", -50)] [⟨"B", "A", 50⟩] 100).nets)
          (Result.mk [("A", (50 : ℚ)), ("B", -50)] [⟨"B", "A", 50⟩] 100).settlement n|
        ≤ 1 / 100 := by
  refine ⟨by decide, scenario1_ok, ?_, ?_⟩
  · norm_num [debtorsOf, creditorsOf, sumAmounts, List.filter]
  · exact settlement_drives_nets_to_zero ["A", "B"] [⟨"Beer", 100, "A", ["A", "B"]⟩]
      ⟨[("A", 50), ("B", -50)], [⟨"B", "A", 50⟩], 100⟩ (by decide) scenario1_ok
      (by norm_num [debtorsOf, creditorsOf, sumAmounts, List.filter])

/-- C2 as stated is false: four expenses of 0.01, each paid by one of A-D
and shared with E, give four nets of +0.005 that each round up to +0.01
while E's net is exactly -0.02; the rounded nets sum to +0.02 > 0.01. -/
theorem netSum_exceeds_cent :
    calculateAdvanced ["A", "B", "C", "D", "E"]
      [⟨"e1", 1 / 100, "A", ["A", "E"]⟩, ⟨"e2", 1 / 100, "B", ["B", "E"]⟩,
       ⟨"e3", 1 / 100, "C", ["C", "E"]⟩, ⟨"e4", 1 / 100, "D", ["D", "E"]⟩] =
      .ok ⟨[("A", 1 / 100), ("B", 1 / 100), ("C", 1 / 100), ("D", 1 / 100),
            ("E", -(1 / 50))], [], 1 / 25⟩
  ∧ sumAmounts [("A", (1 : ℚ) / 100), ("B", 1 / 100), ("C", 1 / 100), ("D", 1 / 100),
      ("E", -(1 / 50))] = 1 / 50
  ∧ ¬(|sumAmounts [("A", (1 : ℚ) / 100), ("B", 1 / 100), ("C", 1 / 100), ("D", 1 / 100),
      ("E", -(1 / 50))]| ≤ 1 / 100) := by
  refine ⟨?_, ?_, ?_⟩
  · norm_num [calculateAdvanced, aggregateExpenses, applyExpense, addOwed, initTotals,
      validExpense, roundCent, settleLoop, settleLoopF, debtorsOf, creditorsOf, min_def,
      List.filter]
    simp [settleLoopF, validExpense, List.filter]
    norm_num [settleLoopF, roundCent, min_def, validExpense, List.filter]
  · simp [sumAmounts]
    norm_num
  · rw [show sumAmounts [("A", (1 : ℚ) / 100), ("B", 1 / 100), ("C", 1 / 100),
        ("D", 1 / 100), ("E", -(1 / 50))] = 1 / 50 from by simp [sumAmounts]; norm_num]
    rw [show |(1 : ℚ) / 50| = 1 / 50 from abs_of_pos (by norm_num)]
    norm_num

/-- Witness for `netSum_within_half_cent_each` at the spec's first scenario:
the two rounded nets sum to 0, within 2 times half a cent. -/
theorem netSum_within_half_cent_each_witness :
    (["A", "B"] : List String).Nodup
  ∧ calculateAdvanced ["A", "B"] [⟨"Beer", 100, "A", ["A", "B"]⟩] =
      .ok ⟨[("A", 50), ("B", -50)], [⟨"B", "A", 50⟩], 100⟩
  ∧ |sumAmounts (Result.mk [("A", (50 : ℚ)), ("B", -50)] [⟨"B", "A", 50⟩] 100).nets|
      ≤ ((["A", "B"] : List String).length : ℚ) / 200 :=
  ⟨by decide, scenario1_ok,
    netSum_within_half_cent_each ["A", "B"] [⟨"Beer", 100, "A", ["A", "B"]⟩] _
      (by decide) scenario1_ok⟩

/-- Witness for `nets_perm_invariant`: swapping two expenses leaves the nets
unchanged. -/
theorem nets_perm_invariant_witness :
    ([⟨"Beer", (100 : ℚ), "A", ["A", "B"]⟩, ⟨"Tea", 30, "B", ["A"]⟩] : List Expense).Perm
        [⟨"Tea", (30 : ℚ), "B", ["A"]⟩, ⟨"Beer", 100, "A", ["A", "B"]⟩]
  ∧ resultNets (calculateAdvanced ["A", "B"]
        [⟨"Beer", (100 : ℚ), "A", ["A", "B"]⟩, ⟨"Tea", 30, "B", ["A"]⟩])
      = resultNets (calculateAdvanced ["A", "B"]
        [⟨"Tea", (30 : ℚ), "B", ["A"]⟩, ⟨"Beer", 100, "A", ["A", "B"]⟩]) := by
  have hp : ([⟨"Beer", (100 : ℚ), "A", ["A", "B"]⟩, ⟨"Tea", 30, "B", ["A"]⟩] :
      List Expense).Perm [⟨"Tea", (30 : ℚ), "B", ["A"]⟩, ⟨"Beer", 100, "A", ["A", "B"]⟩] :=
    List.Perm.swap _ _ _
  exact ⟨hp, nets_perm_invariant ["A", "B"] _ _ hp⟩

/-- Witness for `error_outcomes`: one participant and no expense rows give
the `NoValidExpenses` outcome and no other error. -/
theorem error_outcomes_witness :
    (∀ e ∈ ([] : List Expense).filter validExpense, KnownNames ["A"] e)
  ∧ ((calculateAdvanced ["A"] [] = .noParticipants ↔ (["A"] : List String) = [])
    ∧ (calculateAdvanced ["A"] [] = .noValidExpenses ↔
        (["A"] : List String) ≠ [] ∧ ([] : List Expense).filter validExpense = [])
    ∧ calculateAdvanced ["A"] [] ≠ .typeError) :=
  ⟨by simp, error_outcomes ["A"] [] (by simp)⟩

/-- Witness for `applyExpense_updates`: one expense of 100 paid by A and
shared by A and B adds 100 to A's paid and an equal share to each owed. -/
theorem applyExpense_updates_witness :
    ∃ t2, applyExpense ["A", "B"] initTotals ⟨"Beer", 100, "A", ["A", "B"]⟩ = some t2
      ∧ (Expense.mk "Beer" 100 "A" ["A", "B"]).sharedBy.Nodup
      ∧ (t2 (Expense.mk "Beer" 100 "A" ["A", "B"]).payer).paid
          = (initTotals (Expense.mk "Beer" 100 "A" ["A", "B"]).payer).paid
            + (Expense.mk "Beer" 100 "A" ["A", "B"]).amount
      ∧ ∀ n ∈ (Expense.mk "Beer" 100 "A" ["A", "B"]).sharedBy,
          (t2 n).owed = (initTotals n).owed
            + (Expense.mk "Beer" 100 "A" ["A", "B"]).amount
              / ((Expense.mk "Beer" 100 "A" ["A", "B"]).sharedBy.length : ℚ) := by
  have hs : (applyExpense ["A", "B"] initTotals
      ⟨"Beer", 100, "A", ["A", "B"]⟩).isSome = true :=
    applyExpense_isSome _ _ _ ⟨by simp, fun n hn => hn⟩
  obtain ⟨t2, ht2⟩ := Option.isSome_iff_exists.mp hs
  obtain ⟨h1, h2, h3, h4, h5⟩ :=
    applyExpense_updates ["A", "B"] initTotals t2 _ ht2 (by decide)
  exact ⟨t2, ht2, by decide, h1, h3⟩

/-- Witness for `no_self_transfer` at the spec's first scenario: the single
transfer B to A is not a self-transfer. -/
theorem no_self_transfer_witness :
    (["A", "B"] : List String).Nodup
  ∧ calculateAdvanced ["A", "B"] [⟨"Beer", 100, "A", ["A", "B"]⟩] =
      .ok ⟨[("A", 50), ("B", -50)], [⟨"B", "A", 50⟩], 100⟩
  ∧ ∀ tr ∈ (Result.mk [("A", (50 : ℚ)), ("B", -50)] [⟨"B", "A", 50⟩] 100).settlement,
      tr.from_ ≠ tr.to_ :=
  ⟨by decide, scenario1_ok,
    no_self_transfer ["A", "B"] [⟨"Beer", 100, "A", ["A", "B"]⟩] _
      (by decide) scenario1_ok⟩

/-- Witness for `transfer_amounts_positive` at the spec's first scenario:
the produced transfer carries 50 > 0. -/
theorem transfer_amounts_positive_witness :
    calculateAdvanced ["A", "B"] [⟨"Beer", 100, "A", ["A", "B"]⟩] =
      .ok ⟨[("A", 50), ("B", -50)], [⟨"B", "A", 50⟩], 100⟩
  ∧ ∀ tr ∈ (Result.mk [("A", (50 : ℚ)), ("B", -50)] [⟨"B", "A", 50⟩] 100).settlement,
      0 < tr.amount :=
  ⟨scenario1_ok,
    transfer_amounts_positive ["A", "B"] [⟨"Beer", 100, "A", ["A", "B"]⟩] _
      scenario1_ok⟩

end Darubuddy
